import Mathlib

/-! Agog: a shallow embedding of `src/agog.c`.

The program is a small command-line tool whose only durable state is the
filesystem.  This development models

* the POSIX calls the program makes (`opendir`/`readdir`, `stat`, `unlink`,
  `rmdir`, `mkdir`) over a flat filesystem state,
* the C string handling of the program (`strlen`, `snprintf`, `strdup` with
  `strcat`, `strncmp`) over lists of characters,
* the functions `agog_rmdir_recursive`, `agog_project`, `agog_project_list`,
  `agog_project_create`, `agog_project_destroy` and `main`.

Modelling conventions.

* A C string is the list of its characters before the terminator.
* A filesystem state is a list of `(location, kind)` pairs; a location is the
  list of names leading from the root directory to the entry.  The root
  directory always exists.
* The states hold directories and plain files only.  A filesystem with
  symbolic links, which `stat` and `opendir` follow, is not a state of the
  model, and nothing proved here speaks about one.
* Paths are resolved from the root directory.  For an absolute path that is
  what the process does; for a relative path it is what a process does whose
  working directory is `/`.  The program builds absolute paths only, and the
  frame theorem for `agog_rmdir_recursive` takes its path absolute.
* `readdir` yields `.` and `..` and the children of the directory in the order
  in which the state lists them.  A state is any list, so every order is
  covered; `mkdir` puts the new entry at a place in that order which is a
  parameter (`slot`), so creation order does not fix listing order.  The
  listing is taken when the directory is opened.
* Every call on an existing entry succeeds (no permissions, no descriptor
  limit, no length limits).
* `strdup(AGOG_PROJECTS)` returns a block of 33 requested bytes of which
  `STRDUP_USABLE` can be written without reaching allocator data.  `strcat`
  of a name that fits is concatenation.  `strcat` of a longer name overruns
  the block; the function then ends with `Status.overflow`, and what the
  process does from there on is not modelled.
* `agog_rmdir_recursive` is not structurally recursive, so it takes a fuel
  argument bounding the recursion depth; a run that exhausts it reports the
  state reached so far as `Run.cutoff`.
* `strlen(entry->d_name + 2)` reads past the terminator of a name shorter than
  two characters.  What each such read finds is given by the parameter `past`,
  which holds a separate value for every read of a run.
-/

namespace Agog

/-- A C string: the characters before the terminating NUL. -/
abbrev CStr := List Char

/-- A resolved location: the names from the root directory down to the entry. -/
abbrev Loc := List CStr

/-- The type of an entry as `S_ISDIR(st_mode)` sees it. -/
inductive Kind where
  | file
  | dir
  deriving DecidableEq, Repr

/-- A filesystem state: the entries other than the root, in listing order. -/
abbrev FS := List (Loc × Kind)

/-! ## Path resolution -/

/-- Split a path at every `/`; empty components are kept. -/
def splitSlash : CStr → List CStr
  | [] => [[]]
  | c :: cs =>
    if c = '/' then [] :: splitSlash cs
    else
      match splitSlash cs with
      | [] => [[c]]
      | h :: t => (c :: h) :: t

/-- First entry recorded for a location. -/
def lookupLoc : FS → Loc → Option Kind
  | [], _ => none
  | x :: rest, loc => if x.1 = loc then some x.2 else lookupLoc rest loc

/-- Kind of the entry at a location; the root is always a directory. -/
def kindAt (fs : FS) (loc : Loc) : Option Kind :=
  if loc = [] then some Kind.dir else lookupLoc fs loc

/-- One step of path resolution: the current location must be a directory; an
empty component and `.` stay, `..` goes to the parent, a name goes to the
child of that name, which must exist. -/
def step (fs : FS) (cur : Loc) (c : CStr) : Option Loc :=
  if kindAt fs cur ≠ some Kind.dir then none
  else if c = [] ∨ c = ['.'] then some cur
  else if c = ['.', '.'] then some cur.dropLast
  else if (kindAt fs (cur ++ [c])).isSome then some (cur ++ [c])
  else none

/-- Resolve a list of components starting from a location. -/
def walk (fs : FS) : Loc → List CStr → Option Loc
  | cur, [] => some cur
  | cur, c :: cs => (step fs cur c).bind (fun n => walk fs n cs)

/-- Path resolution from the root directory; the empty path does not resolve.
An absolute path resolves as it does for the process; a relative path as it
does for a process whose working directory is `/`. -/
def resolve (fs : FS) (path : CStr) : Option Loc :=
  if path = [] then none else walk fs [] (splitSlash path)

/-! ## The system calls used by the program -/

/-- Result of `stat(path, &s)`: `none` when the call fails, else the kind.
The states of the model hold no symbolic links, so there is none to follow. -/
def stat (fs : FS) (path : CStr) : Option Kind :=
  (resolve fs path).bind (kindAt fs)

/-- Names of the children of a directory, in listing order. -/
def childNames (fs : FS) (loc : Loc) : List CStr :=
  fs.filterMap (fun x => if x.1.dropLast = loc then x.1.getLast? else none)

/-- Result of `opendir(path)` followed by reading the whole stream: `none`
when `opendir` returns `NULL`, else the names `readdir` yields, the children in
the order of the state.  Both loops of the program skip `.` and `..` without
any effect, so where they stand in the listing makes no difference. -/
def opendir (fs : FS) (path : CStr) : Option (List CStr) :=
  match resolve fs path with
  | none => none
  | some loc =>
    if kindAt fs loc = some Kind.dir then
      some (['.'] :: ['.', '.'] :: childNames fs loc)
    else none

/-- Remove the entry at a location. -/
def removeLoc (fs : FS) (loc : Loc) : FS :=
  fs.filter (fun x => x.1 ≠ loc)

/-- Effect of `unlink(path)`: removes a non-directory; otherwise fails and
leaves the state alone. -/
def unlink (fs : FS) (path : CStr) : FS :=
  match resolve fs path with
  | none => fs
  | some loc => if kindAt fs loc = some Kind.file then removeLoc fs loc else fs

/-- Last non-empty component of a path. -/
def lastComp (path : CStr) : Option CStr :=
  ((splitSlash path).filter (fun c => c ≠ [])).getLast?

/-- Effect of `rmdir(path)`: removes an empty directory other than the root
whose path does not end in `.` or `..`; otherwise fails and leaves the state
alone. -/
def rmdir (fs : FS) (path : CStr) : FS :=
  match resolve fs path with
  | none => fs
  | some loc =>
    if kindAt fs loc = some Kind.dir ∧ loc ≠ [] ∧ childNames fs loc = []
        ∧ lastComp path ≠ some ['.'] ∧ lastComp path ≠ some ['.', '.'] then
      removeLoc fs loc
    else fs

/-- Put an entry at a given place of the listing order (at the end when the
place is past it). -/
def placeAt (slot : Nat) (x : Loc × Kind) : FS → FS
  | [] => [x]
  | y :: rest =>
    match slot with
    | 0 => x :: y :: rest
    | k + 1 => y :: placeAt k x rest

/-- Effect of `mkdir(path, S_IRWXU)`: fails when the path already resolves or
its parent is not an existing directory; otherwise adds a directory, which the
filesystem lists at place `slot`. -/
def mkdir (slot : Nat) (fs : FS) (path : CStr) : FS :=
  if (resolve fs path).isSome then fs
  else
    let comps := (splitSlash path).filter (fun c => c ≠ [])
    match comps.getLast? with
    | none => fs
    | some name =>
      if name = ['.'] ∨ name = ['.', '.'] then fs
      else
        match walk fs [] comps.dropLast with
        | none => fs
        | some parent =>
          if kindAt fs parent = some Kind.dir then
            placeAt slot (parent ++ [name], Kind.dir) fs
          else fs

/-! ## Constants of the program -/

/-- The macro `AGOG_PROJECTS`, that is `AGOG_DIR"projects/"`. -/
def AGOG_PROJECTS : CStr := "/home/mcromer/tmp/agog/projects/".toList

/-- Bytes of the block returned by `strdup(AGOG_PROJECTS)` that can be written
without reaching allocator data.  The call requests 33; the allocator rounds
the block up, to 40 usable bytes with glibc on a 64-bit machine. -/
def STRDUP_USABLE : Nat := 40

/-- The string `strcat(dst, src)` leaves in a block of `room` usable bytes
holding `dst`: the concatenation when it fits with its terminator, and `none`
when the write overruns the block. -/
def strcat (room : Nat) (dst src : CStr) : Option CStr :=
  if dst.length + src.length + 1 ≤ room then some (dst ++ src) else none

/-! ## `agog_rmdir_recursive` -/

/-- What the reads past the terminator of short names find during a run.
Every read of a run has its own key, so the values of different reads, also
of the same name, are independent of one another. -/
abbrev Junk := List Nat → Nat

/-- The value found by the read made for the entry at hand. -/
def Junk.here (past : Junk) : Nat := past []

/-- The values for the recursive call made for the entry at hand. -/
def Junk.sub (past : Junk) : Junk := fun k => past (0 :: k)

/-- The values for the entries still to be read. -/
def Junk.next (past : Junk) : Junk := fun k => past (1 :: k)

/-- The value of `strlen(entry->d_name + 2)`.  For a name of two or more
characters the pointer is inside the string and the result is the length less
two.  For a shorter name the pointer is past the terminator and the result is
whatever the bytes of the directory stream behind it give at this read:
`past.here`. -/
def strlenPlus2 (past : Junk) (d_name : CStr) : Nat :=
  if 2 ≤ d_name.length then d_name.length - 2 else past.here

/-- The value of `bufsize`: `strlen(dirpath) + strlen(entry->d_name + 2)`. -/
def bufsize (past : Junk) (dirpath d_name : CStr) : Nat :=
  dirpath.length + strlenPlus2 past d_name

/-- The string `snprintf(buf, size, "%s/%s", a, b)` leaves in `buf`: at most
`size - 1` characters of the formatted text.  (A size of 0 writes nothing; in
`agog_rmdir_recursive` that needs an empty `dirpath`, which `opendir` refuses.) -/
def snprintf (size : Nat) (a b : CStr) : CStr :=
  (a ++ '/' :: b).take (size - 1)

/-- The child path `buf` built in the loop of `agog_rmdir_recursive`. -/
def childPath (past : Junk) (dirpath d_name : CStr) : CStr :=
  snprintf (bufsize past dirpath d_name) dirpath d_name

/-- Outcome of running `agog_rmdir_recursive`: it returned, or the recursion
went deeper than the fuel allows; either way with the state reached. -/
inductive Run where
  | done (fs : FS)
  | cutoff (fs : FS)
  deriving DecidableEq, Repr

/-- The state a run reached. -/
def Run.fs : Run → FS
  | Run.done fs => fs
  | Run.cutoff fs => fs

/-- Whether a run returned. -/
def Run.isDone : Run → Bool
  | Run.done _ => true
  | Run.cutoff _ => false

/-- The `while ((entry = readdir(d)) != NULL)` loop of `agog_rmdir_recursive`
over the names still to be read; `self` is the recursive call. -/
def eraseEntries (self : Junk → FS → CStr → Run) (past : Junk) (dirpath : CStr) :
    List CStr → FS → Run
  | [], fs => Run.done fs
  | d_name :: rest, fs =>
    if d_name.head? = some '.' then eraseEntries self past.next dirpath rest fs
    else
      let buf := childPath past dirpath d_name
      match stat fs buf with
      | none => eraseEntries self past.next dirpath rest fs
      | some Kind.dir =>
        match self past.sub fs buf with
        | Run.done fs1 => eraseEntries self past.next dirpath rest fs1
        | Run.cutoff fs1 => Run.cutoff fs1
      | some Kind.file => eraseEntries self past.next dirpath rest (unlink fs buf)

/-- The function `agog_rmdir_recursive(dirpath)`, with recursion depth bounded
by the fuel. -/
def agog_rmdir_recursive : Junk → Nat → FS → CStr → Run
  | _, 0, fs, _ => Run.cutoff fs
  | past, fuel + 1, fs, dirpath =>
    match opendir fs dirpath with
    | none => Run.done fs
    | some names =>
      match eraseEntries (fun j => agog_rmdir_recursive j fuel) past dirpath names fs with
      | Run.done fs1 => Run.done (rmdir fs1 dirpath)
      | Run.cutoff fs1 => Run.cutoff fs1

/-! ## The command functions -/

/-- How a function of the program ended. -/
inductive Status where
  | ret
  | exit (code : Nat)
  | fault
  | overflow
  | cutoff
  deriving DecidableEq, Repr

/-- What a function of the program leaves behind: the filesystem, the text
written to standard output, and how it ended (`ret`: returned to its caller,
`exit c`: the process ended with status `c`, `fault`: a null directory stream
was passed to `readdir`, `overflow`: `strcat` overran the block of `strdup`,
`cutoff`: fuel exhausted).  With `fault` and `overflow` the filesystem and the
text are those reached when the behaviour of the process stopped being
defined; what follows is not modelled. -/
structure Outcome where
  fs : FS
  out : CStr
  status : Status
  deriving DecidableEq, Repr

/-- A rule of sixty copies of one character followed by a newline, as the
help texts print it. -/
def rule (c : Char) : CStr := List.replicate 60 c ++ ['\n']

/-- Text printed by `agog_short_help`. -/
def agog_short_help : CStr :=
  rule '=' ++ " agog - a command line tool for time and project management \n".toList
    ++ rule '-' ++ " version 0.1. try 'agog help' for more  \n".toList ++ rule '='

/-- Text printed by `agog_help`. -/
def agog_help : CStr :=
  rule '=' ++ "  Usage: agog [COMMAND] [OPTIONS]                           \n".toList
    ++ rule '-' ++ "  COMMANDS:                                                 \n".toList
    ++ "    project - list or interact with active projects         \n".toList ++ rule '='

/-- The loop of `agog_project_list`: the text printed for the names read. -/
def listEntries : List CStr → CStr
  | [] => []
  | d_name :: rest =>
    if d_name.head? = some '.' then listEntries rest
    else d_name ++ '\n' :: listEntries rest

/-- The function `agog_project_list`.  The result of `opendir` is not checked;
a null stream reaches `readdir`. -/
def agog_project_list (fs : FS) : Outcome :=
  match opendir fs AGOG_PROJECTS with
  | none => ⟨fs, [], Status.fault⟩
  | some names => ⟨fs, listEntries names, Status.ret⟩

/-- The function `agog_project_create(argc, argv)`, `argc` being the length of
`argv`; `slot` is the place the filesystem gives a new directory. -/
def agog_project_create (slot : Nat) (fs : FS) (argv : List CStr) : Outcome :=
  if argv.length < 2 then
    ⟨fs, "agog-project-create requires argument : project name\n".toList, Status.exit 1⟩
  else
    let prj_name := argv.getD 1 []
    match strcat STRDUP_USABLE AGOG_PROJECTS prj_name with
    | none => ⟨fs, [], Status.overflow⟩
    | some project =>
      if stat fs project = some Kind.dir then
        ⟨fs, "Project ".toList ++ prj_name ++ " already exists.\n".toList, Status.ret⟩
      else
        ⟨mkdir slot fs project,
          "Created new project ".toList ++ prj_name ++ ".\n".toList, Status.ret⟩

/-- The function `agog_project_destroy(argc, argv)`; the fuel is handed to
`agog_rmdir_recursive`. -/
def agog_project_destroy (past : Junk) (fuel : Nat) (fs : FS) (argv : List CStr) :
    Outcome :=
  if argv.length < 2 then
    ⟨fs, "agog-project-destroy requires argument : project name\n".toList, Status.exit 1⟩
  else
    let prj_name := argv.getD 1 []
    match strcat STRDUP_USABLE AGOG_PROJECTS prj_name with
    | none => ⟨fs, [], Status.overflow⟩
    | some project =>
      if stat fs project ≠ some Kind.dir then
        ⟨fs, "Project ".toList ++ prj_name ++ " does not exist.\n".toList, Status.ret⟩
      else
        match agog_rmdir_recursive past fuel fs project with
        | Run.done fs1 => ⟨fs1, [], Status.ret⟩
        | Run.cutoff fs1 => ⟨fs1, [], Status.cutoff⟩

/-- The function `agog_project(argc, argv)`. -/
def agog_project (slot : Nat) (fs : FS) (argv : List CStr) : Outcome :=
  if argv.length < 2 then agog_project_list fs
  else
    let subcommand := argv.getD 1 []
    if subcommand = "-c".toList ∨ subcommand = "--create".toList then
      agog_project_create slot fs (argv.drop 1)
    else
      ⟨fs, "Unrecognised option ".toList ++ subcommand ++ " to agog-project.\n".toList,
        Status.ret⟩

/-- The function `main(argc, argv)`: a callee that returns lets `main` return
`EXIT_SUCCESS`; a callee that ends otherwise keeps its own status. -/
def main (slot : Nat) (fs : FS) (argv : List CStr) : Outcome :=
  if argv.length < 2 then ⟨fs, agog_short_help, Status.exit 0⟩
  else
    let command := argv.getD 1 []
    if command = "help".toList then ⟨fs, agog_help, Status.exit 0⟩
    else if command = "project".toList then
      let r := agog_project slot fs (argv.drop 1)
      match r.status with
      | Status.ret => ⟨r.fs, r.out, Status.exit 0⟩
      | _ => r
    else
      ⟨fs, "Unrecognised command ".toList ++ command ++ ".\n".toList, Status.exit 1⟩

/-! ## Predicates on paths and states -/

/-- No entry name of the state contains a `/`. -/
def SlashFree (fs : FS) : Prop := ∀ x ∈ fs, ∀ c ∈ x.1, '/' ∉ c

/-- No component of the path begins with `.`. -/
def DotFree (path : CStr) : Prop := ∀ c ∈ splitSlash path, c.head? ≠ some '.'

/-- Some name on the way to the location, the last included, begins with `.`. -/
def HasDot (loc : Loc) : Prop := ∃ c ∈ loc, c.head? = some '.'

instance (fs : FS) : Decidable (SlashFree fs) := by
  unfold SlashFree; infer_instance

instance (path : CStr) : Decidable (DotFree path) := by
  unfold DotFree; infer_instance

instance (loc : Loc) : Decidable (HasDot loc) := by
  unfold HasDot; infer_instance

/-- All components of a split path after the first do not begin with `.`. -/
def TailOK (path : CStr) : Prop := ∀ c ∈ (splitSlash path).tail, c.head? ≠ some '.'

/-- The second state has slash-free names and agrees with the first on every
location that has a `.`-prefixed name on its way. -/
def Good (fs fs1 : FS) : Prop :=
  SlashFree fs1 ∧ ∀ loc, HasDot loc → kindAt fs1 loc = kindAt fs loc

/-- Location of the projects root `AGOG_PROJECTS`. -/
def projectsLoc : Loc :=
  ["home".toList, "mcromer".toList, "tmp".toList, "agog".toList, "projects".toList]

/-- A project name that names a direct child of the projects root and is
shown by the listing: non-empty, without `/`, not beginning with `.`. -/
def PlainName (n : CStr) : Prop := n ≠ [] ∧ '/' ∉ n ∧ n.head? ≠ some '.'

instance (n : CStr) : Decidable (PlainName n) := by
  unfold PlainName; infer_instance

/-- The projects root resolves, component by component, to a directory. -/
def RootOK (fs : FS) : Prop :=
  walk fs [] projectsLoc = some projectsLoc ∧ kindAt fs projectsLoc = some Kind.dir

/-- The name, appended to `AGOG_PROJECTS`, fits the block of `strdup`. -/
def Fits (n : CStr) : Prop := AGOG_PROJECTS.length + n.length + 1 ≤ STRDUP_USABLE

instance (n : CStr) : Decidable (Fits n) := by
  unfold Fits; infer_instance

/-- The state after `agog_project_create` has run for each request in turn; a
request is a name together with the place the filesystem gives the new
directory. -/
def createAll (a0 : CStr) (fs : FS) (reqs : List (Nat × CStr)) : FS :=
  reqs.foldl (fun st r => (agog_project_create r.1 st [a0, r.2]).fs) fs

/-- The names, each followed by a newline. -/
def lines : List CStr → CStr
  | [] => []
  | n :: rest => n ++ '\n' :: lines rest

/-! ## Concrete filesystem states used below -/

/-- A state holding the projects root and its ancestors, and no project. -/
def rootOnly : FS :=
  [ (["home".toList], Kind.dir),
    (["home".toList, "mcromer".toList], Kind.dir),
    (["home".toList, "mcromer".toList, "tmp".toList], Kind.dir),
    (["home".toList, "mcromer".toList, "tmp".toList, "agog".toList], Kind.dir),
    (projectsLoc, Kind.dir) ]

/-- Project `alpha` holding the single file `x.txt`. -/
def fsOneFile : FS :=
  rootOnly ++
  [ (projectsLoc ++ ["alpha".toList], Kind.dir),
    (projectsLoc ++ ["alpha".toList, "x.txt".toList], Kind.file) ]

/-- Project `alpha` holding file `x.txt` and directory `sub` with file `y.txt`. -/
def fsScenario : FS :=
  rootOnly ++
  [ (projectsLoc ++ ["alpha".toList], Kind.dir),
    (projectsLoc ++ ["alpha".toList, "x.txt".toList], Kind.file),
    (projectsLoc ++ ["alpha".toList, "sub".toList], Kind.dir),
    (projectsLoc ++ ["alpha".toList, "sub".toList, "y.txt".toList], Kind.file) ]

/-- Project `alpha` holding the single directory `doc`. -/
def fsLoop : FS :=
  rootOnly ++
  [ (projectsLoc ++ ["alpha".toList], Kind.dir),
    (projectsLoc ++ ["alpha".toList, "doc".toList], Kind.dir) ]

/-- Projects `alph` (empty) and `alpha` (holding the file `ab`). -/
def fsSibling : FS :=
  rootOnly ++
  [ (projectsLoc ++ ["alph".toList], Kind.dir),
    (projectsLoc ++ ["alpha".toList], Kind.dir),
    (projectsLoc ++ ["alpha".toList, "ab".toList], Kind.file) ]

/-- The state `fsSibling` without the project `alph`. -/
def fsSiblingGone : FS :=
  rootOnly ++
  [ (projectsLoc ++ ["alpha".toList], Kind.dir),
    (projectsLoc ++ ["alpha".toList, "ab".toList], Kind.file) ]

/-- An empty directory `.git` under the projects root. -/
def fsDotDir : FS :=
  rootOnly ++ [ (projectsLoc ++ [".git".toList], Kind.dir) ]

/-- Project `alph`, empty, and project `alpha` holding the files `ab` and
`.keep` and the directory `.git` with the file `config`. -/
def fsHidden : FS :=
  rootOnly ++
  [ (projectsLoc ++ ["alph".toList], Kind.dir),
    (projectsLoc ++ ["alpha".toList], Kind.dir),
    (projectsLoc ++ ["alpha".toList, "ab".toList], Kind.file),
    (projectsLoc ++ ["alpha".toList, ".keep".toList], Kind.file),
    (projectsLoc ++ ["alpha".toList, ".git".toList], Kind.dir),
    (projectsLoc ++ ["alpha".toList, ".git".toList, "config".toList], Kind.file) ]

/-- The single project `.hidden`, empty. -/
def fsDotProject : FS :=
  rootOnly ++ [ (projectsLoc ++ [".hidden".toList], Kind.dir) ]

/-- The single project `abcdefghijk`, empty. -/
def fsLongName : FS :=
  rootOnly ++ [ (projectsLoc ++ ["abcdefghijk".toList], Kind.dir) ]

/-- The single project `alpha`, empty. -/
def fsAlpha : FS :=
  rootOnly ++ [ (projectsLoc ++ ["alpha".toList], Kind.dir) ]

/-! ## Unfolding lemmas -/

theorem agog_rmdir_recursive_succ (past : Junk) (fuel : Nat) (fs : FS) (dirpath : CStr) :
    agog_rmdir_recursive past (fuel + 1) fs dirpath =
      (match opendir fs dirpath with
      | none => Run.done fs
      | some names =>
        match eraseEntries (fun j => agog_rmdir_recursive j fuel) past dirpath names fs with
        | Run.done fs1 => Run.done (rmdir fs1 dirpath)
        | Run.cutoff fs1 => Run.cutoff fs1) := rfl

/-! ## Recursive removal: what the code does -/

/-- The run on project `alpha` of `fsScenario` never returns: the child path
built for `sub` is the path of `alpha` itself. -/
theorem scenario_never_returns (past : Junk) (fuel : Nat) :
    agog_rmdir_recursive past fuel fsScenario (AGOG_PROJECTS ++ "alpha".toList)
      = Run.cutoff fsScenario := by
  induction fuel generalizing past with
  | zero => rfl
  | succ k ih =>
    have hloop : ∀ self : Junk → FS → CStr → Run,
        eraseEntries self past (AGOG_PROJECTS ++ "alpha".toList)
          [['.'], ['.', '.'], "x.txt".toList, "sub".toList] fsScenario
        = (match self past.next.next.next.sub fsScenario (AGOG_PROJECTS ++ "alpha".toList) with
           | Run.done fs1 =>
             eraseEntries self past.next.next.next.next (AGOG_PROJECTS ++ "alpha".toList) [] fs1
           | Run.cutoff fs1 => Run.cutoff fs1) := fun _ => rfl
    have h1 : agog_rmdir_recursive past (k + 1) fsScenario (AGOG_PROJECTS ++ "alpha".toList)
        = (match eraseEntries (fun j => agog_rmdir_recursive j k) past
              (AGOG_PROJECTS ++ "alpha".toList)
              [['.'], ['.', '.'], "x.txt".toList, "sub".toList] fsScenario with
           | Run.done fs1 => Run.done (rmdir fs1 (AGOG_PROJECTS ++ "alpha".toList))
           | Run.cutoff fs1 => Run.cutoff fs1) := rfl
    rw [h1, hloop, ih]

/-- Claim C1, evaluated on the code.  In `fsOneFile` every name is non-empty
and none begins with `.`.  Destroying project `alpha`, which holds the one file
`x.txt`, returns with the filesystem unchanged: both `alpha` and `alpha/x.txt`
are still there.  On the scenario of the specification (`x.txt` and
`sub/y.txt`) the run never returns and the state stays as it was. -/
theorem destroy_leaves_tree (past : Junk) (fuel : Nat) :
    (∀ x ∈ fsOneFile, ∀ c ∈ x.1, PlainName c)
      ∧ agog_project_destroy past (fuel + 1) fsOneFile ["--destroy".toList, "alpha".toList]
        = ⟨fsOneFile, [], Status.ret⟩
      ∧ stat fsOneFile (AGOG_PROJECTS ++ "alpha".toList) = some Kind.dir
      ∧ stat fsOneFile (AGOG_PROJECTS ++ "alpha/x.txt".toList) = some Kind.file
      ∧ agog_project_destroy past fuel fsScenario ["--destroy".toList, "alpha".toList]
        = ⟨fsScenario, [], Status.cutoff⟩ := by
  refine ⟨by decide, rfl, by decide, by decide, ?_⟩
  have h2 : agog_project_destroy past fuel fsScenario ["--destroy".toList, "alpha".toList]
      = (match agog_rmdir_recursive past fuel fsScenario (AGOG_PROJECTS ++ "alpha".toList) with
        | Run.done fs1 => ⟨fs1, [], Status.ret⟩
        | Run.cutoff fs1 => ⟨fs1, [], Status.cutoff⟩) := rfl
  rw [h2, scenario_never_returns]

/-- Claim C3.  When `opendir(p)` fails, `agog_rmdir_recursive(p)` returns and
leaves the filesystem exactly as it was; this covers the second run after a run
that removed `p`. -/
theorem erase_unopenable_noop (past : Junk) (fuel : Nat) (fs : FS) (p : CStr)
    (h : opendir fs p = none) :
    agog_rmdir_recursive past (fuel + 1) fs p = Run.done fs := by
  rw [agog_rmdir_recursive_succ, h]

/-- Witness for C3: erasing the empty project `alpha` removes it, and a second
run on the same path returns with the state unchanged. -/
theorem erase_unopenable_noop_witness :
    agog_rmdir_recursive (fun _ => 0) 1 fsAlpha (AGOG_PROJECTS ++ "alpha".toList)
        = Run.done rootOnly
      ∧ opendir rootOnly (AGOG_PROJECTS ++ "alpha".toList) = none
      ∧ agog_rmdir_recursive (fun _ => 0) 1 rootOnly (AGOG_PROJECTS ++ "alpha".toList)
        = Run.done rootOnly :=
  ⟨by decide, by decide, erase_unopenable_noop _ 0 rootOnly _ (by decide)⟩

/-! ## The block of `strdup` -/

theorem strcat_fits (n : CStr) (h : Fits n) :
    strcat STRDUP_USABLE AGOG_PROJECTS n = some (AGOG_PROJECTS ++ n) := by
  unfold Fits at h
  simp [strcat, h]

theorem strcat_overruns (n : CStr) (h : ¬ Fits n) :
    strcat STRDUP_USABLE AGOG_PROJECTS n = none := by
  unfold Fits at h
  simp [strcat, h]

/-- For a name that fits the block and names an existing directory,
`agog_project_create` leaves the filesystem as it is, prints
`Project <name> already exists.` and returns to its caller. -/
theorem create_existing_noop (slot : Nat) (fs : FS) (a0 n : CStr) (rest : List CStr)
    (hfit : Fits n) (h : stat fs (AGOG_PROJECTS ++ n) = some Kind.dir) :
    agog_project_create slot fs (a0 :: n :: rest)
      = ⟨fs, "Project ".toList ++ n ++ " already exists.\n".toList, Status.ret⟩ := by
  simp [agog_project_create, strcat_fits n hfit, h]

/-- For a name that does not fit the block, `agog_project_create` overruns it
before anything is looked up or printed. -/
theorem create_overruns (slot : Nat) (fs : FS) (a0 n : CStr) (rest : List CStr)
    (hfit : ¬ Fits n) :
    agog_project_create slot fs (a0 :: n :: rest) = ⟨fs, [], Status.overflow⟩ := by
  simp [agog_project_create, strcat_overruns n hfit]

/-- Claim C4, evaluated on the code.  The directory `abcdefghijk` exists under
the projects root.  `strcat` of this eleven-character name needs 44 bytes of
the block of `strdup`, which has `STRDUP_USABLE` = 40: `agog_project_create`
overruns the block and does not get to print `Project abcdefghijk already
exists.`, neither called directly nor through `main`.  For the name `alpha`,
which fits, the message is printed and the function returns. -/
theorem create_existing_overruns (slot : Nat) :
    stat fsLongName (AGOG_PROJECTS ++ "abcdefghijk".toList) = some Kind.dir
      ∧ AGOG_PROJECTS.length + "abcdefghijk".toList.length + 1 = 44
      ∧ agog_project_create slot fsLongName ["--create".toList, "abcdefghijk".toList]
        = ⟨fsLongName, [], Status.overflow⟩
      ∧ main slot fsLongName
          ["agog".toList, "project".toList, "--create".toList, "abcdefghijk".toList]
        = ⟨fsLongName, [], Status.overflow⟩
      ∧ agog_project_create slot fsAlpha ["--create".toList, "alpha".toList]
        = ⟨fsAlpha, "Project alpha already exists.\n".toList, Status.ret⟩ :=
  ⟨by decide, by decide, rfl, rfl, rfl⟩

/-- For a name that fits the block and names no existing directory,
`agog_project_destroy` prints `Project <name> does not exist.`, returns, and
leaves the filesystem unchanged, with no fuel at all. -/
theorem destroy_absent_noop (past : Junk) (fuel : Nat) (fs : FS) (a0 n : CStr)
    (rest : List CStr) (hfit : Fits n) (h : stat fs (AGOG_PROJECTS ++ n) ≠ some Kind.dir) :
    agog_project_destroy past fuel fs (a0 :: n :: rest)
      = ⟨fs, "Project ".toList ++ n ++ " does not exist.\n".toList, Status.ret⟩ := by
  simp [agog_project_destroy, strcat_fits n hfit, h]

/-- For a name that does not fit the block, `agog_project_destroy` overruns it
before anything is looked up or printed. -/
theorem destroy_overruns (past : Junk) (fuel : Nat) (fs : FS) (a0 n : CStr)
    (rest : List CStr) (hfit : ¬ Fits n) :
    agog_project_destroy past fuel fs (a0 :: n :: rest) = ⟨fs, [], Status.overflow⟩ := by
  simp [agog_project_destroy, strcat_overruns n hfit]

/-- Claim C5, evaluated on the code.  No entry `abcdefghijk` exists under the
projects root.  `strcat` of this eleven-character name needs 44 bytes of the
block of `strdup`, which has `STRDUP_USABLE` = 40: `agog_project_destroy`
overruns the block and does not get to print `Project abcdefghijk does not
exist.`.  For the name `beta`, which fits, the message is printed and the
function returns. -/
theorem destroy_absent_overruns (past : Junk) (fuel : Nat) :
    stat fsAlpha (AGOG_PROJECTS ++ "abcdefghijk".toList) = none
      ∧ AGOG_PROJECTS.length + "abcdefghijk".toList.length + 1 = 44
      ∧ agog_project_destroy past fuel fsAlpha ["--destroy".toList, "abcdefghijk".toList]
        = ⟨fsAlpha, [], Status.overflow⟩
      ∧ agog_project_destroy past fuel fsAlpha ["--destroy".toList, "beta".toList]
        = ⟨fsAlpha, "Project beta does not exist.\n".toList, Status.ret⟩ :=
  ⟨by decide, by decide, rfl, rfl⟩

/-! ## Exit status -/

/-- The way `main` ends in every case in which the bare `project` command, if
that is what is run, can open the projects root. -/
theorem main_status_when_listable (slot : Nat) (fs : FS) (argv : List CStr)
    (h : (opendir fs AGOG_PROJECTS).isSome) :
    (main slot fs argv).status =
      if 2 ≤ argv.length ∧ argv.getD 1 [] ≠ "help".toList ∧ argv.getD 1 [] ≠ "project".toList
      then Status.exit 1
      else if argv.length = 3 ∧ argv.getD 1 [] = "project".toList
          ∧ (argv.getD 2 [] = "-c".toList ∨ argv.getD 2 [] = "--create".toList)
      then Status.exit 1
      else if 4 ≤ argv.length ∧ argv.getD 1 [] = "project".toList
          ∧ (argv.getD 2 [] = "-c".toList ∨ argv.getD 2 [] = "--create".toList)
          ∧ ¬ Fits (argv.getD 3 [])
      then Status.overflow
      else Status.exit 0 := by
  obtain ⟨names, hn⟩ := Option.isSome_iff_exists.mp h
  match argv with
  | [] => simp [main]
  | [_] => simp [main]
  | _ :: command :: [] =>
    by_cases h1 : command = "help".toList
    · simp_all [main, h1]
    · by_cases h2 : command = "project".toList
      · simp_all [main, h2, agog_project, agog_project_list, hn]
      · simp_all [main, h1, h2]
  | _ :: command :: sub :: [] =>
    by_cases h1 : command = "help".toList
    · simp_all [main, h1]
    · by_cases h2 : command = "project".toList
      · by_cases h3 : sub = "-c".toList ∨ sub = "--create".toList
        · simp_all [main, h2, agog_project, agog_project_create, h3]
        · simp_all [main, h2, agog_project, h3]
      · simp_all [main, h1, h2]
  | _ :: command :: sub :: name :: rest =>
    have e1 : ¬ (rest.length + 1 + 1 + 1 + 1 < 2) := by omega
    have e2 : ¬ (rest.length + 1 + 1 + 1 < 2) := by omega
    have e3 : ¬ (rest.length + 1 + 1 < 2) := by omega
    have e4 : ¬ (rest.length + 1 + 1 + 1 + 1 = 3) := by omega
    have e5 : 4 ≤ rest.length + 1 + 1 + 1 + 1 := by omega
    simp only [main, agog_project, agog_project_create, List.length_cons, List.drop_succ_cons,
      List.drop_zero, e1, e2, e3, e4, e5, if_false, false_and, true_and, List.getD_cons_succ,
      List.getD_cons_zero]
    by_cases hf : Fits name
    · rw [strcat_fits name hf]
      by_cases h1 : command = "help".toList
      · simp_all
      · by_cases h2 : command = "project".toList
        · by_cases h3 : sub = "-c".toList ∨ sub = "--create".toList
          · by_cases h4 : stat fs (AGOG_PROJECTS ++ name) = some Kind.dir
            · simp_all
            · simp_all
          · simp_all
        · simp_all
    · rw [strcat_overruns name hf]
      by_cases h1 : command = "help".toList
      · simp_all
      · by_cases h2 : command = "project".toList
        · by_cases h3 : sub = "-c".toList ∨ sub = "--create".toList
          · simp_all
          · simp_all
        · simp_all

/-- Claim C6, evaluated on the code.  With no projects root on disk the bare
`project` command hands the null stream of the failed `opendir` to `readdir`:
the process does not end with status 0. -/
theorem main_project_list_faults (slot : Nat) :
    main slot [] ["agog".toList, "project".toList] = ⟨[], [], Status.fault⟩
      ∧ opendir [] AGOG_PROJECTS = none :=
  ⟨rfl, by decide⟩

/-! ## The child path -/

/-- For a name of two or more characters the child path is shorter than
`dirpath/name`, whatever lies past the terminator. -/
theorem childPath_length (past : Junk) (dirpath d_name : CStr)
    (h : 2 ≤ d_name.length) :
    (childPath past dirpath d_name).length < (dirpath ++ '/' :: d_name).length := by
  simp only [childPath, snprintf, bufsize, strlenPlus2, h, if_true, List.length_take,
    List.length_append, List.length_cons]
  omega

/-- Claim C8, evaluated on the code.  For directory `AGOG_PROJECTS ++ "alpha"`
and entry `x.txt` the buffer size is 40, and the child path is the 39-character
string ending in `alpha/x`, not the 43-character `alpha/x.txt`. -/
theorem childPath_is_truncated (past : Junk) :
    bufsize past (AGOG_PROJECTS ++ "alpha".toList) "x.txt".toList = 40
      ∧ childPath past (AGOG_PROJECTS ++ "alpha".toList) "x.txt".toList
        = AGOG_PROJECTS ++ "alpha/x".toList
      ∧ childPath past (AGOG_PROJECTS ++ "alpha".toList) "x.txt".toList
        ≠ AGOG_PROJECTS ++ "alpha".toList ++ '/' :: "x.txt".toList :=
  ⟨rfl, rfl, by
    have h : childPath past (AGOG_PROJECTS ++ "alpha".toList) "x.txt".toList
        = AGOG_PROJECTS ++ "alpha/x".toList := rfl
    rw [h]; decide⟩

/-! ## Termination and frame of the recursive removal -/

/-- Claim C9, evaluated on the code.  For project `alpha` holding the
directory `doc`, the child path built for `doc` is the path of `alpha` itself,
the recursive call is made on that same path in the same state, and the run
returns for no amount of fuel. -/
theorem erase_recurses_on_itself (past : Junk) (fuel : Nat) :
    childPath past (AGOG_PROJECTS ++ "alpha".toList) "doc".toList
        = AGOG_PROJECTS ++ "alpha".toList
      ∧ agog_rmdir_recursive past fuel fsLoop (AGOG_PROJECTS ++ "alpha".toList)
        = Run.cutoff fsLoop := by
  refine ⟨rfl, ?_⟩
  induction fuel generalizing past with
  | zero => rfl
  | succ k ih =>
    have hloop : ∀ self : Junk → FS → CStr → Run,
        eraseEntries self past (AGOG_PROJECTS ++ "alpha".toList)
          [['.'], ['.', '.'], "doc".toList] fsLoop
        = (match self past.next.next.sub fsLoop (AGOG_PROJECTS ++ "alpha".toList) with
           | Run.done fs1 =>
             eraseEntries self past.next.next.next (AGOG_PROJECTS ++ "alpha".toList) [] fs1
           | Run.cutoff fs1 => Run.cutoff fs1) := fun _ => rfl
    have h1 : agog_rmdir_recursive past (k + 1) fsLoop (AGOG_PROJECTS ++ "alpha".toList)
        = (match eraseEntries (fun j => agog_rmdir_recursive j k) past
              (AGOG_PROJECTS ++ "alpha".toList) [['.'], ['.', '.'], "doc".toList] fsLoop with
           | Run.done fs1 => Run.done (rmdir fs1 (AGOG_PROJECTS ++ "alpha".toList))
           | Run.cutoff fs1 => Run.cutoff fs1) := rfl
    rw [h1, hloop, ih]

/-- Claim C10, evaluated on the code.  Erasing project `alpha`, which holds the
file `ab`, builds the child path of the sibling project `alph`, recurses into
it and removes it; `alpha` and `alpha/ab` stay. -/
theorem erase_removes_sibling (past : Junk) (fuel : Nat) :
    childPath past (AGOG_PROJECTS ++ "alpha".toList) "ab".toList
        = AGOG_PROJECTS ++ "alph".toList
      ∧ agog_rmdir_recursive past (fuel + 2) fsSibling (AGOG_PROJECTS ++ "alpha".toList)
        = Run.done fsSiblingGone
      ∧ kindAt fsSibling (projectsLoc ++ ["alph".toList]) = some Kind.dir
      ∧ kindAt fsSiblingGone (projectsLoc ++ ["alph".toList]) = none :=
  ⟨rfl, rfl, by decide, by decide⟩

/-! ## Dot-prefixed entries -/

theorem splitSlash_ne_nil (s : CStr) : splitSlash s ≠ [] := by
  cases s with
  | nil => simp [splitSlash]
  | cons c cs =>
    unfold splitSlash
    split
    · simp
    · split <;> simp

theorem splitSlash_cons_slash (cs : CStr) : splitSlash ('/' :: cs) = [] :: splitSlash cs := by
  simp [splitSlash]

theorem splitSlash_cons_other (c : Char) (cs : CStr) (h : c ≠ '/') :
    ∃ h1 t, splitSlash cs = h1 :: t ∧ splitSlash (c :: cs) = (c :: h1) :: t := by
  cases hs : splitSlash cs with
  | nil => exact absurd hs (splitSlash_ne_nil cs)
  | cons h1 t =>
    refine ⟨h1, t, rfl, ?_⟩
    rw [splitSlash, if_neg h, hs]

theorem splitSlash_append_slash (p e : CStr) :
    splitSlash (p ++ '/' :: e) = splitSlash p ++ splitSlash e := by
  induction p with
  | nil => simp [splitSlash]
  | cons c cs ih =>
    by_cases hc : c = '/'
    · subst hc
      simp [splitSlash_cons_slash, ih]
    · obtain ⟨h1, t, e1, e2⟩ := splitSlash_cons_other c cs hc
      obtain ⟨h2, t2, e3, e4⟩ := splitSlash_cons_other c (cs ++ '/' :: e) hc
      rw [List.cons_append, e4, e2]
      rw [ih, e1] at e3
      simp only [List.cons_append, List.cons.injEq] at e3
      rw [← e3.1, ← e3.2]
      simp

theorem splitSlash_of_no_slash (e : CStr) (h : '/' ∉ e) : splitSlash e = [e] := by
  induction e with
  | nil => rfl
  | cons c cs ih =>
    have hc : c ≠ '/' := fun hc => h (by simp [hc])
    have hcs : '/' ∉ cs := fun hm => h (List.mem_cons_of_mem _ hm)
    rw [splitSlash, if_neg hc, ih hcs]

theorem tailOK_cons_slash (cs : CStr) : TailOK ('/' :: cs) ↔ DotFree cs := by
  simp [TailOK, DotFree, splitSlash_cons_slash]

theorem tailOK_cons_other (c : Char) (cs : CStr) (h : c ≠ '/') :
    TailOK (c :: cs) ↔ TailOK cs := by
  obtain ⟨h1, t, e1, e2⟩ := splitSlash_cons_other c cs h
  simp [TailOK, e1, e2]

theorem dotFree_iff (s : CStr) : DotFree s ↔ s.head? ≠ some '.' ∧ TailOK s := by
  cases s with
  | nil => simp [DotFree, TailOK, splitSlash]
  | cons c cs =>
    by_cases hc : c = '/'
    · subst hc
      simp [DotFree, TailOK, splitSlash_cons_slash]
    · obtain ⟨h1, t, e1, e2⟩ := splitSlash_cons_other c cs hc
      simp [DotFree, TailOK, e2]

theorem head_take_ne (s : CStr) (n : Nat) (h : s.head? ≠ some '.') :
    (s.take n).head? ≠ some '.' := by
  cases n with
  | zero => simp
  | succ k =>
    cases s with
    | nil => simp
    | cons c cs => simpa using h

theorem tailOK_take (s : CStr) : ∀ n, TailOK s → TailOK (s.take n) := by
  induction s with
  | nil => intro n h; simpa using h
  | cons c cs ih =>
    intro n h
    cases n with
    | zero => simp [TailOK, splitSlash]
    | succ k =>
      rw [List.take_succ_cons]
      by_cases hc : c = '/'
      · subst hc
        rw [tailOK_cons_slash] at h ⊢
        rw [dotFree_iff] at h ⊢
        exact ⟨head_take_ne cs k h.1, ih k h.2⟩
      · rw [tailOK_cons_other c _ hc] at h ⊢
        exact ih k h

theorem dotFree_take (s : CStr) (n : Nat) (h : DotFree s) : DotFree (s.take n) := by
  rw [dotFree_iff] at h ⊢
  exact ⟨head_take_ne s n h.1, tailOK_take s n h.2⟩

theorem dotFree_append_slash (p e : CStr) (hp : DotFree p) (he : DotFree e) :
    DotFree (p ++ '/' :: e) := by
  intro c hc
  rw [splitSlash_append_slash, List.mem_append] at hc
  exact hc.elim (hp c) (he c)

theorem dotFree_name (e : CStr) (h1 : '/' ∉ e) (h2 : e.head? ≠ some '.') : DotFree e := by
  intro c hc
  rw [splitSlash_of_no_slash e h1] at hc
  simp at hc
  rw [hc]; exact h2

/-- The child path built for a listed name that is not skipped has no
component beginning with `.`, when the directory path has none. -/
theorem childPath_dotFree (past : Junk) (dirpath d_name : CStr)
    (hp : DotFree dirpath) (h1 : '/' ∉ d_name) (h2 : d_name.head? ≠ some '.') :
    DotFree (childPath past dirpath d_name) :=
  dotFree_take _ _ (dotFree_append_slash _ _ hp (dotFree_name _ h1 h2))

theorem step_noDot (fs : FS) (cur l : Loc) (c : CStr) (hcur : ¬ HasDot cur)
    (hc : c.head? ≠ some '.') (h : step fs cur c = some l) : ¬ HasDot l := by
  unfold step at h
  split at h
  · simp at h
  · split at h
    · simp only [Option.some.injEq] at h
      rw [← h]; exact hcur
    · split at h
      · rename_i h3
        rw [h3] at hc
        simp at hc
      · split at h
        · simp only [Option.some.injEq] at h
          rw [← h]
          rintro ⟨x, hx, hd⟩
          rw [List.mem_append] at hx
          rcases hx with hx | hx
          · exact hcur ⟨x, hx, hd⟩
          · simp only [List.mem_singleton] at hx
            rw [hx] at hd
            exact hc hd
        · simp at h

theorem walk_noDot (fs : FS) (cs : List CStr) :
    ∀ (cur l : Loc), ¬ HasDot cur → (∀ c ∈ cs, c.head? ≠ some '.') →
      walk fs cur cs = some l → ¬ HasDot l := by
  induction cs with
  | nil =>
    intro cur l hcur _ h
    simp only [walk, Option.some.injEq] at h
    rw [← h]; exact hcur
  | cons c rest ih =>
    intro cur l hcur hcs h
    simp only [walk] at h
    cases hs : step fs cur c with
    | none => rw [hs] at h; simp at h
    | some n =>
      rw [hs] at h
      simp only [Option.some_bind] at h
      exact ih n l (step_noDot fs cur n c hcur (hcs c (by simp)) hs)
        (fun x hx => hcs x (by simp [hx])) h

/-- A path none of whose components begins with `.` resolves to a location
none of whose names begins with `.`. -/
theorem resolve_noDot (fs : FS) (path : CStr) (loc : Loc) (hp : DotFree path)
    (h : resolve fs path = some loc) : ¬ HasDot loc := by
  unfold resolve at h
  split at h
  · simp at h
  · exact walk_noDot fs _ [] loc (by simp [HasDot]) hp h

theorem lookupLoc_removeLoc (fs : FS) (loc l : Loc) (h : l ≠ loc) :
    lookupLoc (removeLoc fs loc) l = lookupLoc fs l := by
  induction fs with
  | nil => rfl
  | cons x rest ih =>
    have e : removeLoc (x :: rest) loc
        = if x.1 = loc then removeLoc rest loc else x :: removeLoc rest loc := by
      by_cases hx : x.1 = loc <;> simp [removeLoc, List.filter_cons, hx]
    rw [e]
    by_cases hx : x.1 = loc
    · have hxl : ¬ x.1 = l := fun e1 => h (e1.symm.trans hx)
      rw [if_pos hx, ih, lookupLoc, if_neg hxl]
    · rw [if_neg hx, lookupLoc, lookupLoc, ih]

theorem kindAt_removeLoc (fs : FS) (loc l : Loc) (h : l ≠ loc) :
    kindAt (removeLoc fs loc) l = kindAt fs l := by
  simp [kindAt, lookupLoc_removeLoc fs loc l h]

theorem slashFree_removeLoc (fs : FS) (loc : Loc) (h : SlashFree fs) :
    SlashFree (removeLoc fs loc) := by
  intro x hx
  exact h x (List.mem_of_mem_filter hx)

theorem good_refl (fs : FS) (h : SlashFree fs) : Good fs fs := ⟨h, fun _ _ => rfl⟩

theorem good_trans (a b c : FS) (h1 : Good a b) (h2 : Good b c) : Good a c :=
  ⟨h2.1, fun loc hl => (h2.2 loc hl).trans (h1.2 loc hl)⟩

theorem good_removeLoc (fs : FS) (loc : Loc) (h : SlashFree fs) (hl : ¬ HasDot loc) :
    Good fs (removeLoc fs loc) :=
  ⟨slashFree_removeLoc fs loc h, fun l hd =>
    kindAt_removeLoc fs loc l (fun e => hl (e ▸ hd))⟩

theorem good_unlink (fs : FS) (path : CStr) (h : SlashFree fs) (hp : DotFree path) :
    Good fs (unlink fs path) := by
  unfold unlink
  split
  · exact good_refl fs h
  · rename_i loc hr
    split
    · exact good_removeLoc fs loc h (resolve_noDot fs path loc hp hr)
    · exact good_refl fs h

theorem good_rmdir (fs : FS) (path : CStr) (h : SlashFree fs) (hp : DotFree path) :
    Good fs (rmdir fs path) := by
  unfold rmdir
  split
  · exact good_refl fs h
  · rename_i loc hr
    split
    · exact good_removeLoc fs loc h (resolve_noDot fs path loc hp hr)
    · exact good_refl fs h

theorem childNames_no_slash (fs : FS) (loc : Loc) (h : SlashFree fs) :
    ∀ e ∈ childNames fs loc, '/' ∉ e := by
  intro e he
  unfold childNames at he
  rw [List.mem_filterMap] at he
  obtain ⟨x, hx, hxe⟩ := he
  split at hxe
  · exact h x hx e (List.mem_of_getLast?_eq_some hxe)
  · simp at hxe

theorem opendir_no_slash (fs : FS) (path : CStr) (names : List CStr) (h : SlashFree fs)
    (ho : opendir fs path = some names) : ∀ e ∈ names, '/' ∉ e := by
  unfold opendir at ho
  split at ho
  · simp at ho
  · split at ho
    · simp only [Option.some.injEq] at ho
      rw [← ho]
      intro e he
      simp only [List.mem_cons] at he
      rcases he with he | he | he
      · rw [he]; decide
      · rw [he]; decide
      · exact childNames_no_slash fs _ h e he
    · simp at ho

/-- The loop keeps every location with a `.`-prefixed name on its way, given
that the recursive call does. -/
theorem eraseEntries_good (self : Junk → FS → CStr → Run) (dirpath : CStr)
    (hp : DotFree dirpath)
    (hself : ∀ j fs q, SlashFree fs → DotFree q → Good fs (self j fs q).fs) :
    ∀ (names : List CStr) (past : Junk) (fs : FS), (∀ e ∈ names, '/' ∉ e) → SlashFree fs →
      Good fs (eraseEntries self past dirpath names fs).fs := by
  intro names
  induction names with
  | nil => intro _ fs _ h; exact good_refl fs h
  | cons e rest ih =>
    intro past fs hn h
    have hrest : ∀ x ∈ rest, '/' ∉ x := fun x hx => hn x (List.mem_cons_of_mem _ hx)
    unfold eraseEntries
    split
    · exact ih _ fs hrest h
    · rename_i hdot
      have hq : DotFree (childPath past dirpath e) :=
        childPath_dotFree past dirpath e hp (hn e (by simp)) hdot
      simp only
      split
      · exact ih _ fs hrest h
      · have hg := hself past.sub fs (childPath past dirpath e) h hq
        split
        · rename_i fs1 hrun
          rw [hrun] at hg
          exact good_trans _ _ _ hg (ih _ fs1 hrest hg.1)
        · rename_i fs1 hrun
          rw [hrun] at hg
          exact hg
      · have hg := good_unlink fs (childPath past dirpath e) h hq
        exact good_trans _ _ _ hg (ih _ _ hrest hg.1)

theorem agog_rmdir_recursive_good :
    ∀ (fuel : Nat) (past : Junk) (fs : FS) (p : CStr), SlashFree fs → DotFree p →
      Good fs (agog_rmdir_recursive past fuel fs p).fs := by
  intro fuel
  induction fuel with
  | zero => intro _ fs p h _; exact good_refl fs h
  | succ k ih =>
    intro past fs p h hp
    rw [agog_rmdir_recursive_succ]
    split
    · exact good_refl fs h
    · rename_i names ho
      have hl := eraseEntries_good (fun j => agog_rmdir_recursive j k) p hp
        (fun j fs1 q h1 h2 => ih j fs1 q h1 h2) names past fs
        (opendir_no_slash fs p names h ho) h
      split
      · rename_i fs1 hrun
        rw [hrun] at hl
        exact good_trans _ _ _ hl (good_rmdir fs1 p hl.1 hp)
      · rename_i fs1 hrun
        rw [hrun] at hl
        exact hl

theorem walk_append (fs : FS) (a b : List CStr) :
    ∀ cur, walk fs cur (a ++ b) = (walk fs cur a).bind (fun l => walk fs l b) := by
  induction a with
  | nil => intro cur; simp [walk]
  | cons c rest ih =>
    intro cur
    simp only [List.cons_append, walk]
    cases step fs cur c with
    | none => simp
    | some n => simp [ih n]

theorem splitSlash_projects : splitSlash AGOG_PROJECTS = ([] :: projectsLoc) ++ [[]] := by
  decide

theorem splitSlash_project (n : CStr) (h : '/' ∉ n) :
    splitSlash (AGOG_PROJECTS ++ n) = ([] :: projectsLoc) ++ [n] := by
  have e : AGOG_PROJECTS ++ n = "/home/mcromer/tmp/agog/projects".toList ++ '/' :: n := by
    simp [AGOG_PROJECTS]
  have e2 : splitSlash "/home/mcromer/tmp/agog/projects".toList = [] :: projectsLoc := by
    decide
  rw [e, splitSlash_append_slash, e2, splitSlash_of_no_slash n h]

theorem step_root_empty (fs : FS) : step fs [] [] = some [] := by
  simp [step, kindAt]

theorem step_stay (fs : FS) (cur : Loc) (h : kindAt fs cur = some Kind.dir) :
    step fs cur [] = some cur := by
  simp [step, h]

theorem step_name (fs : FS) (cur : Loc) (n : CStr) (h : kindAt fs cur = some Kind.dir)
    (hn : PlainName n) :
    step fs cur n = if (kindAt fs (cur ++ [n])).isSome then some (cur ++ [n]) else none := by
  have h1 : n ≠ [] := hn.1
  have h2 : n ≠ ['.'] := fun e => hn.2.2 (by rw [e]; rfl)
  have h3 : n ≠ ['.', '.'] := fun e => hn.2.2 (by rw [e]; rfl)
  simp [step, h, h1, h2, h3]

/-- With the projects root in place, the path of a project resolves exactly
when the root has an entry of that name. -/
theorem resolve_project (fs : FS) (n : CStr) (hr : RootOK fs) (hn : PlainName n) :
    resolve fs (AGOG_PROJECTS ++ n)
      = if (kindAt fs (projectsLoc ++ [n])).isSome then some (projectsLoc ++ [n]) else none := by
  have hne : AGOG_PROJECTS ++ n ≠ [] := by simp [AGOG_PROJECTS]
  rw [resolve, if_neg hne, splitSlash_project n hn.2.1, List.cons_append, walk,
    step_root_empty, Option.some_bind, walk_append, hr.1, Option.some_bind, walk,
    step_name fs _ n hr.2 hn]
  split <;> simp [walk]

theorem resolve_projects_root (fs : FS) (hr : RootOK fs) :
    resolve fs AGOG_PROJECTS = some projectsLoc := by
  have hne : AGOG_PROJECTS ≠ [] := by decide
  rw [resolve, if_neg hne, splitSlash_projects, List.cons_append, walk, step_root_empty,
    Option.some_bind, walk_append, hr.1, Option.some_bind, walk, step_stay fs _ hr.2]
  simp [walk]

theorem opendir_projects_root (fs : FS) (hr : RootOK fs) :
    opendir fs AGOG_PROJECTS = some (['.'] :: ['.', '.'] :: childNames fs projectsLoc) := by
  simp [opendir, resolve_projects_root fs hr, hr.2]

theorem step_some_of_name (fs : FS) (cur l : Loc) (c : CStr)
    (hc : c ≠ [] ∧ c ≠ ['.'] ∧ c ≠ ['.', '.']) (h : step fs cur c = some l) :
    l = cur ++ [c] := by
  unfold step at h
  split at h
  · simp at h
  · simp only [hc.1, hc.2.1, hc.2.2, or_self, if_false] at h
    split at h
    · simp only [Option.some.injEq] at h
      exact h.symm
    · simp at h

theorem walk_names (fs : FS) (cs : List CStr) :
    ∀ (cur l : Loc), (∀ c ∈ cs, c ≠ [] ∧ c ≠ ['.'] ∧ c ≠ ['.', '.']) →
      walk fs cur cs = some l → l = cur ++ cs := by
  induction cs with
  | nil =>
    intro cur l _ h
    simp only [walk, Option.some.injEq] at h
    simp [h]
  | cons c rest ih =>
    intro cur l hcs h
    simp only [walk] at h
    cases hs : step fs cur c with
    | none => rw [hs] at h; simp at h
    | some n =>
      rw [hs] at h
      simp only [Option.some_bind] at h
      have h1 := step_some_of_name fs cur n c (hcs c (by simp)) hs
      have h2 := ih n l (fun x hx => hcs x (by simp [hx])) h
      rw [h2, h1]; simp

/-- A projects root that can be opened resolves to `projectsLoc`, and the
listing is that of its children. -/
theorem rootOK_of_opendir (fs : FS) (names : List CStr)
    (h : opendir fs AGOG_PROJECTS = some names) :
    RootOK fs ∧ names = ['.'] :: ['.', '.'] :: childNames fs projectsLoc := by
  have hne : AGOG_PROJECTS ≠ [] := by decide
  unfold opendir at h
  split at h
  · simp at h
  · rename_i loc hres
    rw [resolve, if_neg hne, splitSlash_projects, List.cons_append, walk, step_root_empty,
      Option.some_bind, walk_append] at hres
    cases hw : walk fs [] projectsLoc with
    | none => rw [hw] at hres; simp at hres
    | some l0 =>
      rw [hw] at hres
      simp only [Option.some_bind, walk] at hres
      have hl0 : l0 = projectsLoc := by
        have := walk_names fs projectsLoc [] l0 (by decide) hw
        simpa using this
      subst hl0
      unfold step at hres
      split at hres
      · simp at hres
      · rename_i hk
        simp only [true_or, if_true, Option.some_bind, Option.some.injEq] at hres
        subst hres
        have hk1 : kindAt fs projectsLoc = some Kind.dir := not_not.mp hk
        simp only [hk1, if_true, Option.some.injEq] at h
        exact ⟨⟨hw, hk1⟩, h.symm⟩

theorem placeAt_perm (slot : Nat) (x : Loc × Kind) (fs : FS) :
    (placeAt slot x fs).Perm (x :: fs) := by
  induction fs generalizing slot with
  | nil => simp [placeAt]
  | cons y rest ih =>
    cases slot with
    | zero => simp [placeAt]
    | succ k =>
      simp only [placeAt]
      exact ((ih k).cons y).trans (List.Perm.swap x y rest)

theorem lookupLoc_placeAt_ne (slot : Nat) (x : Loc × Kind) (fs : FS) (l : Loc)
    (h : x.1 ≠ l) : lookupLoc (placeAt slot x fs) l = lookupLoc fs l := by
  induction fs generalizing slot with
  | nil => simp [placeAt, lookupLoc, h]
  | cons y rest ih =>
    cases slot with
    | zero => simp [placeAt, lookupLoc, h]
    | succ k => simp [placeAt, lookupLoc, ih k]

theorem kindAt_placeAt_ne (slot : Nat) (x : Loc × Kind) (fs : FS) (l : Loc)
    (h : x.1 ≠ l) : kindAt (placeAt slot x fs) l = kindAt fs l := by
  simp [kindAt, lookupLoc_placeAt_ne slot x fs l h]

/-- Placing an entry at a location that was free keeps every entry that was
there. -/
theorem kindAt_placeAt_of_some (slot : Nat) (x : Loc × Kind) (fs : FS) (l : Loc) (k : Kind)
    (hfree : kindAt fs x.1 = none) (h : kindAt fs l = some k) :
    kindAt (placeAt slot x fs) l = some k := by
  have hne : x.1 ≠ l := by
    intro e
    rw [e, h] at hfree
    simp at hfree
  rw [kindAt_placeAt_ne slot x fs l hne, h]

theorem step_mono (fs fs1 : FS) (hext : ∀ l k, kindAt fs l = some k → kindAt fs1 l = some k)
    (cur l : Loc) (c : CStr) (h : step fs cur c = some l) :
    step fs1 cur c = some l := by
  unfold step at h ⊢
  split at h
  · simp at h
  · rename_i hk
    have hk1 : kindAt fs cur = some Kind.dir := not_not.mp hk
    have hk2 : kindAt fs1 cur = some Kind.dir := hext cur _ hk1
    rw [if_neg (not_not.mpr hk2)]
    split at h
    · rename_i hc; rw [if_pos hc]; exact h
    · rename_i hc
      rw [if_neg hc]
      split at h
      · rename_i hc2; rw [if_pos hc2]; exact h
      · rename_i hc2
        rw [if_neg hc2]
        split at h
        · rename_i hs
          obtain ⟨k, hk3⟩ := Option.isSome_iff_exists.mp hs
          have := hext _ k hk3
          rw [if_pos (by simp [this])]
          exact h
        · simp at h

theorem walk_mono (fs fs1 : FS) (hext : ∀ l k, kindAt fs l = some k → kindAt fs1 l = some k)
    (cs : List CStr) :
    ∀ (cur l : Loc), walk fs cur cs = some l → walk fs1 cur cs = some l := by
  induction cs with
  | nil => intro cur l h; simpa [walk] using h
  | cons c rest ih =>
    intro cur l h
    simp only [walk] at h ⊢
    cases hs : step fs cur c with
    | none => rw [hs] at h; simp at h
    | some n =>
      rw [hs] at h
      simp only [Option.some_bind] at h
      rw [step_mono fs fs1 hext cur n c hs]
      simp only [Option.some_bind]
      exact ih n l h

theorem rootOK_placeAt (slot : Nat) (x : Loc × Kind) (fs : FS) (h : RootOK fs)
    (hfree : kindAt fs x.1 = none) : RootOK (placeAt slot x fs) :=
  ⟨walk_mono fs _ (fun l k => kindAt_placeAt_of_some slot x fs l k hfree) projectsLoc []
      projectsLoc h.1,
    kindAt_placeAt_of_some slot x fs _ _ hfree h.2⟩

theorem projects_comps (n : CStr) (hn : PlainName n) :
    (splitSlash (AGOG_PROJECTS ++ n)).filter (fun c => c ≠ []) = projectsLoc ++ [n] := by
  rw [splitSlash_project n hn.2.1, List.filter_append]
  have e : ([] :: projectsLoc).filter (fun c => decide (c ≠ [])) = projectsLoc := by decide
  rw [e]
  simp [hn.1]

/-- Creating a project whose name fits the block and which the projects root
does not hold: the directory is added, at the place the filesystem gives it. -/
theorem create_fresh (slot : Nat) (fs : FS) (a0 n : CStr) (hr : RootOK fs)
    (hn : PlainName n) (hfit : Fits n) (hnew : kindAt fs (projectsLoc ++ [n]) = none) :
    agog_project_create slot fs [a0, n]
      = ⟨placeAt slot (projectsLoc ++ [n], Kind.dir) fs,
          "Created new project ".toList ++ n ++ ".\n".toList, Status.ret⟩ := by
  have hres : resolve fs (AGOG_PROJECTS ++ n) = none := by
    rw [resolve_project fs n hr hn, hnew]; rfl
  have hstat : stat fs (AGOG_PROJECTS ++ n) ≠ some Kind.dir := by
    simp [stat, hres]
  have h2 : n ≠ ['.'] := fun e => hn.2.2 (by rw [e]; rfl)
  have h3 : n ≠ ['.', '.'] := fun e => hn.2.2 (by rw [e]; rfl)
  have hmk : mkdir slot fs (AGOG_PROJECTS ++ n)
      = placeAt slot (projectsLoc ++ [n], Kind.dir) fs := by
    unfold mkdir
    rw [hres]
    simp only [Option.isSome_none, Bool.false_eq_true, if_false, projects_comps n hn,
      List.getLast?_concat, List.dropLast_concat,
      h2, h3, or_self, hr.1, hr.2, if_true]
  simp [agog_project_create, strcat_fits n hfit, hstat, hmk]

theorem childNames_placeAt (slot : Nat) (fs : FS) (loc : Loc) (n : CStr) (k : Kind) :
    (childNames (placeAt slot (loc ++ [n], k) fs) loc).Perm (n :: childNames fs loc) := by
  have h := (placeAt_perm slot (loc ++ [n], k) fs).filterMap
    (fun x : Loc × Kind => if x.1.dropLast = loc then x.1.getLast? else none)
  have e : childNames ((loc ++ [n], k) :: fs) loc = n :: childNames fs loc := by
    simp [childNames, List.filterMap_cons, List.dropLast_concat, List.getLast?_concat]
  unfold childNames at e ⊢
  rw [← e]
  exact h

theorem mem_of_lookupLoc (fs : FS) (l : Loc) (k : Kind) (h : lookupLoc fs l = some k) :
    ∃ x ∈ fs, x.1 = l := by
  induction fs with
  | nil => simp [lookupLoc] at h
  | cons x rest ih =>
    rw [lookupLoc] at h
    by_cases hx : x.1 = l
    · exact ⟨x, List.mem_cons_self _ _, hx⟩
    · rw [if_neg hx] at h
      obtain ⟨y, hy, hy1⟩ := ih h
      exact ⟨y, List.mem_cons_of_mem _ hy, hy1⟩

theorem mem_childNames_of_lookup (fs : FS) (loc : Loc) (n : CStr) (k : Kind)
    (h : lookupLoc fs (loc ++ [n]) = some k) : n ∈ childNames fs loc := by
  obtain ⟨x, hx, hx1⟩ := mem_of_lookupLoc fs _ k h
  unfold childNames
  rw [List.mem_filterMap]
  refine ⟨x, hx, ?_⟩
  rw [hx1, List.dropLast_concat, if_pos rfl, List.getLast?_concat]

theorem kindAt_child_none (fs : FS) (loc : Loc) (n : CStr) (h : childNames fs loc = []) :
    kindAt fs (loc ++ [n]) = none := by
  have hne : loc ++ [n] ≠ [] := by simp
  rw [kindAt, if_neg hne]
  cases hl : lookupLoc fs (loc ++ [n]) with
  | none => rfl
  | some k =>
    have := mem_childNames_of_lookup fs loc n k hl
    rw [h] at this
    simp at this

theorem kindAt_placeAt_other (slot : Nat) (fs : FS) (loc : Loc) (n m : CStr) (k : Kind)
    (hnm : n ≠ m) (h : kindAt fs (loc ++ [m]) = none) :
    kindAt (placeAt slot (loc ++ [n], k) fs) (loc ++ [m]) = none := by
  rw [kindAt_placeAt_ne slot _ fs _ (by simpa using hnm), h]

/-- From a state with the projects root in place and none of the names taken,
creating distinct plain names that fit the block keeps the projects root and
adds exactly those names to its children, in an order that depends on the
places the filesystem gives them. -/
theorem createAll_spec (a0 : CStr) (reqs : List (Nat × CStr)) :
    ∀ fs : FS, RootOK fs → (reqs.map Prod.snd).Nodup →
      (∀ r ∈ reqs, PlainName r.2 ∧ Fits r.2) →
      (∀ r ∈ reqs, kindAt fs (projectsLoc ++ [r.2]) = none) →
      RootOK (createAll a0 fs reqs)
        ∧ (childNames (createAll a0 fs reqs) projectsLoc).Perm
            (childNames fs projectsLoc ++ reqs.map Prod.snd) := by
  induction reqs with
  | nil => intro fs hr _ _ _; simpa [createAll] using hr
  | cons r rest ih =>
    intro fs hr hnd hpl hnone
    have hr0 := hpl r (by simp)
    have hfree := hnone r (by simp)
    have hstep := create_fresh r.1 fs a0 r.2 hr hr0.1 hr0.2 hfree
    rw [List.map_cons] at hnd
    have hnd1 := List.nodup_cons.mp hnd
    have hrec := ih (placeAt r.1 (projectsLoc ++ [r.2], Kind.dir) fs)
      (rootOK_placeAt r.1 _ fs hr hfree) hnd1.2
      (fun m hm => hpl m (List.mem_cons_of_mem _ hm))
      (fun m hm => kindAt_placeAt_other r.1 fs projectsLoc r.2 m.2 Kind.dir
        (fun e => hnd1.1 (e ▸ List.mem_map_of_mem Prod.snd hm))
        (hnone m (List.mem_cons_of_mem _ hm)))
    have hfold : createAll a0 fs (r :: rest)
        = createAll a0 (placeAt r.1 (projectsLoc ++ [r.2], Kind.dir) fs) rest := by
      unfold createAll
      rw [List.foldl_cons, hstep]
    rw [hfold]
    refine ⟨hrec.1, hrec.2.trans ?_⟩
    rw [List.map_cons]
    exact ((childNames_placeAt r.1 fs projectsLoc r.2 Kind.dir).append_right _).trans
      (List.perm_middle.symm)

theorem listEntries_plain (names : List CStr) (h : ∀ n ∈ names, PlainName n) :
    listEntries names = lines names := by
  induction names with
  | nil => rfl
  | cons n rest ih =>
    have hn : n.head? ≠ some '.' := (h n (by simp)).2.2
    rw [listEntries, if_neg hn, lines, ih (fun m hm => h m (List.mem_cons_of_mem _ hm))]

/-- The listing prints, in listing order and one per line, the names that do
not begin with `.`. -/
theorem agog_project_list_out (fs : FS) (names : List CStr)
    (h : opendir fs AGOG_PROJECTS = some names) :
    agog_project_list fs
      = ⟨fs, lines (names.filter (fun n => n.head? ≠ some '.')), Status.ret⟩ := by
  have e : ∀ ns : List CStr,
      listEntries ns = lines (ns.filter (fun n => n.head? ≠ some '.')) := by
    intro ns
    induction ns with
    | nil => rfl
    | cons n rest ih =>
      by_cases hn : n.head? = some '.'
      · simp [listEntries, hn, ih]
      · simp [listEntries, hn, ih, lines]
  simp [agog_project_list, h, e]

/-- Claim C7, as amended.  The listing prints, one per line and in listing
order, the names under the projects root that do not begin with `.`.  Starting
from an empty projects root, after `agog_project_create` has run for each of a
list of distinct names that are non-empty, contain no `/`, do not begin with
`.` and fit the block of `strdup`, the listing prints exactly those names, one
per line, in some order: the order in which the filesystem lists them,
whatever place it gave each new directory. -/
theorem list_after_creates (fs0 : FS) (a0 : CStr) (reqs : List (Nat × CStr))
    (hroot : opendir fs0 AGOG_PROJECTS = some [['.'], ['.', '.']])
    (hplain : ∀ r ∈ reqs, PlainName r.2 ∧ Fits r.2) (hnd : (reqs.map Prod.snd).Nodup) :
    (∃ listed : List CStr, listed.Perm (reqs.map Prod.snd)
        ∧ opendir (createAll a0 fs0 reqs) AGOG_PROJECTS = some (['.'] :: ['.', '.'] :: listed)
        ∧ agog_project_list (createAll a0 fs0 reqs)
          = ⟨createAll a0 fs0 reqs, lines listed, Status.ret⟩)
      ∧ ∀ (fs : FS) (listing : List CStr), opendir fs AGOG_PROJECTS = some listing →
          agog_project_list fs
            = ⟨fs, lines (listing.filter (fun n => n.head? ≠ some '.')), Status.ret⟩ := by
  obtain ⟨hr, hch⟩ := rootOK_of_opendir fs0 _ hroot
  have hempty : childNames fs0 projectsLoc = [] := by
    simp only [List.cons.injEq, true_and] at hch
    exact hch.symm
  obtain ⟨hr1, hperm⟩ := createAll_spec a0 reqs fs0 hr hnd hplain
    (fun r _ => kindAt_child_none fs0 projectsLoc r.2 hempty)
  rw [hempty, List.nil_append] at hperm
  have hopen := opendir_projects_root _ hr1
  refine ⟨⟨childNames (createAll a0 fs0 reqs) projectsLoc, hperm, hopen, ?_⟩,
    agog_project_list_out⟩
  rw [agog_project_list_out _ _ hopen]
  have hf : (childNames (createAll a0 fs0 reqs) projectsLoc).filter
      (fun n => n.head? ≠ some '.') = childNames (createAll a0 fs0 reqs) projectsLoc := by
    rw [List.filter_eq_self]
    intro n hn
    obtain ⟨r, hr2, hr3⟩ := List.mem_map.mp (hperm.subset hn)
    have := (hplain r hr2).1.2.2
    rw [hr3] at this
    simpa using this
  have hf2 : (['.'] :: ['.', '.'] :: childNames (createAll a0 fs0 reqs) projectsLoc).filter
      (fun n => n.head? ≠ some '.') = childNames (createAll a0 fs0 reqs) projectsLoc := by
    simpa using hf
  rw [hf2]

/-- Counterexample to C7 as stated: from an empty projects root,
`agog_project_create` for the name `.hidden` makes the directory and reports
it created, and the listing that follows prints nothing. -/
theorem list_omits_dot_project :
    opendir rootOnly AGOG_PROJECTS = some [['.'], ['.', '.']]
      ∧ agog_project_create 5 rootOnly ["--create".toList, ".hidden".toList]
        = ⟨fsDotProject, "Created new project .hidden.\n".toList, Status.ret⟩
      ∧ stat fsDotProject (AGOG_PROJECTS ++ ".hidden".toList) = some Kind.dir
      ∧ childNames fsDotProject projectsLoc = [".hidden".toList]
      ∧ agog_project_list fsDotProject = ⟨fsDotProject, [], Status.ret⟩ := by
  decide

/-- Witness for C7 as amended: `alpha` and `beta` are created in that order
from an empty projects root, and the filesystem lists each new directory
first.  The listing prints the two names, `beta` before `alpha`. -/
theorem list_after_creates_witness :
    opendir rootOnly AGOG_PROJECTS = some [['.'], ['.', '.']]
      ∧ (∃ listed : List CStr, listed.Perm ["alpha".toList, "beta".toList]
          ∧ opendir (createAll "--create".toList rootOnly
              [(0, "alpha".toList), (0, "beta".toList)]) AGOG_PROJECTS
            = some (['.'] :: ['.', '.'] :: listed)
          ∧ agog_project_list (createAll "--create".toList rootOnly
              [(0, "alpha".toList), (0, "beta".toList)])
            = ⟨createAll "--create".toList rootOnly
                [(0, "alpha".toList), (0, "beta".toList)], lines listed, Status.ret⟩)
      ∧ (agog_project_list (createAll "--create".toList rootOnly
            [(0, "alpha".toList), (0, "beta".toList)])).out = "beta\nalpha\n".toList :=
  ⟨by decide,
    (list_after_creates rootOnly "--create".toList [(0, "alpha".toList), (0, "beta".toList)]
      (by decide) (by decide) (by decide)).1,
    by decide⟩

end Agog
